import Mathlib

/-!
# Verification of the Honeypot API intelligence subsystem

Shallow embedding of the evidence extractor, evidence merger, fraud
classifier and session aggregate of the honeypot service
(`app/services/extractor.py`, `app/services/detector.py`,
`app/services/session.py`, `app/main.py`), together with proofs of the
specified properties.

Modelling conventions:
* Python strings are `List Char` (`PStr`); `str.strip`, `str.lower` and
  `re.sub(r'\D', '', s)` become `pyStrip`, `pyLower`, `pyDigits`
  (ASCII character model, which covers all texts the claims mention).
* Python `set` objects used only for membership tests are modelled as
  lists with `∈`.
* Python dicts holding evidence are association lists
  `List (String × List PStr)`; `d.get(key, [])` becomes `dget`.
* The `re` library is external to the extraction logic: each extractor
  is a function of the list of raw matches the regex engine hands it
  (in pattern order, as the source iterates them).  Where a claim needs
  the concrete matches of a concrete text, a small backtracking regex
  engine (`reM`/`reFindall`) faithful to Python's leftmost,
  greedy, first-alternative semantics evaluates the source's patterns.
-/

namespace Honeypot

/-- Python strings, modelled as lists of characters. -/
abbrev PStr := List Char

/-- Whitespace characters recognised by `str.strip()` (ASCII model). -/
def isSpaceChar (c : Char) : Bool :=
  c = ' ' || c = '\t' || c = '\n' || c = '\r' || c = '\x0b' || c = '\x0c'

/-- `s.lower()` (ASCII model; `Char.toLower` lowercases exactly `'A'`-`'Z'`). -/
def pyLower (s : PStr) : PStr := s.map Char.toLower

/-- `s.strip()`: drop leading and trailing whitespace. -/
def pyStrip (s : PStr) : PStr :=
  ((s.dropWhile isSpaceChar).reverse.dropWhile isSpaceChar).reverse

/-- `re.sub(r'\D', '', s)`: keep only the digits of `s`. -/
def pyDigits (s : PStr) : PStr := s.filter Char.isDigit

/-- The normalisation key used by the merger's seen-set:
`item.strip().lower()` (extractor.py line 128). -/
def normKey (s : PStr) : PStr := pyLower (pyStrip s)

/-! ## The evidence merger (`merge_intelligence`, extractor.py 116-133)

For one category the loop body of `merge_intelligence` walks the
concatenated entry lists with a seen-set of normalised values, keeping
`item.strip()` the first time a normalised value appears.  Entries are
typed as strings (`PStr`): the `isinstance(item, str)` guard in the
source is the identity on evidence records, whose categories hold
strings. -/

/-- The dedup loop of `merge_intelligence` (extractor.py 123-131):
`seen` is the set of normalised values already kept. -/
def dedupGo : List PStr → List PStr → List PStr
  | [], _ => []
  | x :: xs, seen =>
    if normKey x ∈ seen then dedupGo xs seen
    else pyStrip x :: dedupGo xs (normKey x :: seen)

/-- One category of `merge_intelligence`: dedup over
`list(existing_list) + list(new_list)` with an empty seen-set. -/
def mergeList (a b : List PStr) : List PStr := dedupGo (a ++ b) []

/-- Evidence dicts: association lists keyed by category name. -/
abbrev Intel := List (String × List PStr)

/-- `d.get(key, [])`. -/
def dget (d : Intel) (k : String) : List PStr := (d.lookup k).getD []

/-- The eight category keys, in the order `merge_intelligence` iterates
them (extractor.py line 119) — the same order as `_empty_intel` and the
`regex_intel` literal of `extract_all`. -/
def intelKeys : List String :=
  ["phoneNumbers", "bankAccounts", "upiIds", "phishingLinks",
   "emailAddresses", "caseIds", "policyNumbers", "orderNumbers"]

/-- `merge_intelligence(existing, new)` (extractor.py 116-133): a fresh
dict with the eight keys in order, each mapped to the deduplicated
concatenation of the two inputs' entry lists for that key. -/
def merge_intelligence (existing «new» : Intel) : Intel :=
  intelKeys.map fun k => (k, mergeList (dget existing k) (dget «new» k))

/-- `_empty_intel()` (extractor.py 44-54): all eight categories empty. -/
def empty_intel : Intel := intelKeys.map fun k => (k, [])

/-! ### Basic string lemmas -/

theorem dropWhile_dropWhile (p : Char → Bool) :
    ∀ l : PStr, (l.dropWhile p).dropWhile p = l.dropWhile p := by
  intro l
  induction l with
  | nil => rfl
  | cons c t ih =>
    by_cases h : p c
    · simp [List.dropWhile, h, ih]
    · simp [List.dropWhile, h]

theorem dropWhile_head_false (p : Char → Bool) :
    ∀ (l : PStr) c cs, l.dropWhile p = c :: cs → p c = false := by
  intro l
  induction l with
  | nil => intro c cs h; simp [List.dropWhile] at h
  | cons a t ih =>
    intro c cs h
    by_cases ha : p a
    · simp [List.dropWhile, ha] at h; exact ih _ _ h
    · simp [List.dropWhile, ha] at h
      cases h.1; simpa using ha

/-- The left-strip of an already-stripped string is a no-op. -/
theorem dropWhile_of_stripped (p : Char → Bool) (l : PStr)
    (h : ∀ c cs, l = c :: cs → p c = false) : l.dropWhile p = l := by
  cases l with
  | nil => rfl
  | cons c t => simp [List.dropWhile, h c t rfl]

theorem pyStrip_idem (s : PStr) : pyStrip (pyStrip s) = pyStrip s := by
  unfold pyStrip
  set t := s.dropWhile isSpaceChar with ht
  -- the inner strip: `rstrip t`, whose head (if any) still fails `isSpaceChar`
  set r := (t.reverse.dropWhile isSpaceChar).reverse with hr
  have hrt : r.reverse = t.reverse.dropWhile isSpaceChar := by
    simp [hr]
  -- heads of r fail isSpaceChar: r is a prefix of t and t's head fails
  have hhead : ∀ c cs, r = c :: cs → isSpaceChar c = false := by
    intro c cs hc
    -- r = c :: cs means r.reverse ends with c, and r.reverse is a suffix of
    -- t.reverse, so c :: cs is a prefix of t, hence c is t's head.
    have hsuff : r.reverse <:+ t.reverse := by
      rw [hrt]; exact List.dropWhile_suffix _
    have hpref : r <+: t := by
      have := List.reverse_suffix.mp (by simpa using hsuff)
      simpa [hr] using this
    rcases hpref with ⟨u, hu⟩
    rcases t with _ | ⟨d, ds⟩
    · rw [hc] at hu; simp at hu
    · have hd : isSpaceChar d = false := dropWhile_head_false _ s d ds ht.symm
      rw [hc] at hu
      have : c = d := by
        have := congrArg (·.head?) hu
        simpa using this
      rwa [this]
  have h1 : r.dropWhile isSpaceChar = r := dropWhile_of_stripped _ r hhead
  rw [h1]
  rw [List.reverse_reverse, dropWhile_dropWhile]

theorem normKey_pyStrip (s : PStr) : normKey (pyStrip s) = normKey s := by
  unfold normKey
  rw [pyStrip_idem]

theorem pyDigits_idem (s : PStr) : pyDigits (pyDigits s) = pyDigits s := by
  unfold pyDigits
  rw [List.filter_filter]
  simp

/-! ### Dedup lemmas -/

/-- The seen-set after the dedup loop has processed `l` starting from
`seen`. -/
def accum : List PStr → List PStr → List PStr
  | [], seen => seen
  | x :: xs, seen =>
    if normKey x ∈ seen then accum xs seen
    else accum xs (normKey x :: seen)

theorem dedupGo_append :
    ∀ (l₁ l₂ : List PStr) (s : List PStr),
      dedupGo (l₁ ++ l₂) s = dedupGo l₁ s ++ dedupGo l₂ (accum l₁ s) := by
  intro l₁
  induction l₁ with
  | nil => intro l₂ s; simp [dedupGo, accum]
  | cons x xs ih =>
    intro l₂ s
    by_cases h : normKey x ∈ s
    · simp [dedupGo, accum, h, ih]
    · simp [dedupGo, accum, h, ih]

theorem mem_accum_of_seen :
    ∀ (l : List PStr) (s : List PStr) (n : PStr), n ∈ s → n ∈ accum l s := by
  intro l
  induction l with
  | nil => intro s n h; simpa [accum] using h
  | cons x xs ih =>
    intro s n h
    by_cases hx : normKey x ∈ s
    · simpa [accum, hx] using ih s n h
    · simp only [accum, if_neg hx]
      exact ih _ n (List.mem_cons_of_mem _ h)

theorem mem_accum_self :
    ∀ (l : List PStr) (s : List PStr) (x : PStr), x ∈ l →
      normKey x ∈ accum l s := by
  intro l
  induction l with
  | nil => intro s x h; simp at h
  | cons a xs ih =>
    intro s x h
    rcases List.mem_cons.mp h with rfl | hx
    · by_cases ha : normKey x ∈ s
      · simpa [accum, ha] using mem_accum_of_seen xs s _ ha
      · simp only [accum, if_neg ha]
        exact mem_accum_of_seen xs _ _ (List.mem_cons_self _ _)
    · by_cases ha : normKey a ∈ s
      · simpa [accum, ha] using ih s x hx
      · simp only [accum, if_neg ha]
        exact ih _ x hx

theorem dedupGo_nil_of_seen :
    ∀ (l : List PStr) (s : List PStr), (∀ x ∈ l, normKey x ∈ s) →
      dedupGo l s = [] := by
  intro l
  induction l with
  | nil => intro s _; rfl
  | cons x xs ih =>
    intro s h
    have hx := h x (List.mem_cons_self _ _)
    simp only [dedupGo, if_pos hx]
    exact ih s fun y hy => h y (List.mem_cons_of_mem _ hy)

/-- Key lemma: re-running the dedup loop over an already-deduplicated
prefix (built with a smaller seen-set) is transparent. -/
theorem dedupGo_dedupGo :
    ∀ (l : List PStr) (s₀ s : List PStr) (l₂ : List PStr),
      (∀ n ∈ s₀, n ∈ s) →
      dedupGo (dedupGo l s₀ ++ l₂) s = dedupGo (l ++ l₂) s := by
  intro l
  induction l with
  | nil => intro s₀ s l₂ _; rfl
  | cons x xs ih =>
    intro s₀ s l₂ hsub
    by_cases h₀ : normKey x ∈ s₀
    · have hs : normKey x ∈ s := hsub _ h₀
      simp only [dedupGo, if_pos h₀, List.cons_append, if_pos hs]
      exact ih s₀ s l₂ hsub
    · by_cases hs : normKey x ∈ s
      · simp only [dedupGo, if_neg h₀, List.cons_append, normKey_pyStrip,
          if_pos hs]
        exact ih (normKey x :: s₀) s l₂ (by
          intro n hn
          rcases List.mem_cons.mp hn with rfl | hn
          · exact hs
          · exact hsub _ hn)
      · rw [show (dedupGo (x :: xs) s₀ ++ l₂ =
              pyStrip x :: (dedupGo xs (normKey x :: s₀) ++ l₂)) from by
            simp [dedupGo, if_neg h₀]]
        simp only [dedupGo, normKey_pyStrip, if_neg hs, List.cons_append,
          pyStrip_idem]
        congr 1
        exact ih (normKey x :: s₀) (normKey x :: s) l₂ (by
          intro n hn
          rcases List.mem_cons.mp hn with rfl | hn
          · exact List.mem_cons_self _ _
          · exact List.mem_cons_of_mem _ (hsub _ hn))

/-! ### Merge algebra (claim C1) -/

theorem mergeList_idem (a b : List PStr) :
    mergeList (mergeList a b) b = mergeList a b := by
  unfold mergeList
  rw [dedupGo_dedupGo (a ++ b) [] [] b (by intro n hn; exact hn)]
  rw [dedupGo_append (a ++ b) b []]
  rw [dedupGo_nil_of_seen b _ (by
    intro x hx
    exact mem_accum_self (a ++ b) [] x (List.mem_append_right a hx))]
  simp

theorem mergeList_assoc (a b c : List PStr) :
    mergeList (mergeList a b) c = mergeList a (mergeList b c) := by
  unfold mergeList
  rw [dedupGo_dedupGo (a ++ b) [] [] c (by intro n hn; exact hn)]
  rw [List.append_assoc]
  rw [dedupGo_append a (b ++ c) []]
  rw [dedupGo_append a (dedupGo (b ++ c) []) []]
  congr 1
  have h := dedupGo_dedupGo (b ++ c) [] (accum a []) [] (by intro n hn; simp at hn)
  simp only [List.append_nil] at h
  exact h.symm

/-! ### Dict-level lemmas -/

theorem lookup_map_keys (f : String → List PStr) :
    ∀ (ks : List String) (k : String), k ∈ ks →
      (ks.map fun k' => (k', f k')).lookup k = some (f k) := by
  intro ks
  induction ks with
  | nil => intro k h; simp at h
  | cons a t ih =>
    intro k h
    by_cases hak : k = a
    · subst hak; simp [List.lookup]
    · have hk : k ∈ t := by
        rcases List.mem_cons.mp h with rfl | hk
        · exact absurd rfl hak
        · exact hk
      have hbeq : (k == a) = false := beq_eq_false_iff_ne.mpr hak
      simp only [List.map, List.lookup, hbeq]
      exact ih k hk

theorem lookup_map_not_mem (f : String → List PStr) :
    ∀ (ks : List String) (k : String), k ∉ ks →
      (ks.map fun k' => (k', f k')).lookup k = none := by
  intro ks
  induction ks with
  | nil => intro k _; rfl
  | cons a t ih =>
    intro k h
    have hak : k ≠ a := fun hka => h (hka ▸ List.mem_cons_self _ _)
    have hbeq : (k == a) = false := beq_eq_false_iff_ne.mpr hak
    simp only [List.map, List.lookup, hbeq]
    exact ih k fun hk => h (List.mem_cons_of_mem _ hk)

theorem dget_merge (e n : Intel) (k : String) (hk : k ∈ intelKeys) :
    dget (merge_intelligence e n) k = mergeList (dget e k) (dget n k) := by
  show ((intelKeys.map fun k' =>
      (k', mergeList (dget e k') (dget n k'))).lookup k).getD [] = _
  rw [lookup_map_keys (fun k' => mergeList (dget e k') (dget n k')) intelKeys k hk]
  rfl

theorem dget_merge_not_mem (e n : Intel) (k : String) (hk : k ∉ intelKeys) :
    dget (merge_intelligence e n) k = [] := by
  show ((intelKeys.map fun k' =>
      (k', mergeList (dget e k') (dget n k'))).lookup k).getD [] = _
  rw [lookup_map_not_mem (fun k' => mergeList (dget e k') (dget n k')) intelKeys k hk]
  rfl

theorem dget_empty_intel (k : String) : dget empty_intel k = [] := by
  show ((intelKeys.map fun _ => (_, [])).lookup k).getD [] = _
  by_cases hk : k ∈ intelKeys
  · rw [lookup_map_keys (fun _ => []) intelKeys k hk]; rfl
  · rw [lookup_map_not_mem (fun _ => []) intelKeys k hk]; rfl

/-- C1: the merge of evidence records is idempotent in its second
argument and associative.  `merge_intelligence(merge_intelligence(A,B),B)
= merge_intelligence(A,B)` and `merge(merge(A,B),C) = merge(A,merge(B,C))`
for arbitrary evidence dicts `A`, `B`, `C`. -/
theorem merge_intelligence_idem_assoc (A B C : Intel) :
    merge_intelligence (merge_intelligence A B) B = merge_intelligence A B ∧
    merge_intelligence (merge_intelligence A B) C =
      merge_intelligence A (merge_intelligence B C) := by
  constructor
  · show (intelKeys.map fun k =>
        (k, mergeList (dget (merge_intelligence A B) k) (dget B k))) =
      intelKeys.map fun k => (k, mergeList (dget A k) (dget B k))
    apply List.map_congr_left
    intro k hk
    rw [dget_merge A B k hk, mergeList_idem]
  · show (intelKeys.map fun k =>
        (k, mergeList (dget (merge_intelligence A B) k) (dget C k))) =
      intelKeys.map fun k =>
        (k, mergeList (dget A k) (dget (merge_intelligence B C) k))
    apply List.map_congr_left
    intro k hk
    rw [dget_merge A B k hk, dget_merge B C k hk, mergeList_assoc]

/-! ### Structure of the dedup output (claim C2) -/

theorem dedupGo_length_le :
    ∀ (l s : List PStr), (dedupGo l s).length ≤ l.length := by
  intro l
  induction l with
  | nil => intro s; simp [dedupGo]
  | cons x xs ih =>
    intro s
    by_cases h : normKey x ∈ s
    · simp only [dedupGo, if_pos h]
      exact le_trans (ih s) (Nat.le_succ _)
    · simp only [dedupGo, if_neg h, List.length_cons]
      exact Nat.succ_le_succ (ih _)

theorem dedupGo_sublist :
    ∀ (l s : List PStr), List.Sublist (dedupGo l s) (l.map pyStrip) := by
  intro l
  induction l with
  | nil => intro s; simp [dedupGo]
  | cons x xs ih =>
    intro s
    by_cases h : normKey x ∈ s
    · simp only [dedupGo, if_pos h, List.map]
      exact (ih s).cons _
    · simp only [dedupGo, if_neg h, List.map]
      exact (ih _).cons₂ _

theorem dedupGo_stripped :
    ∀ (l s : List PStr) (y : PStr), y ∈ dedupGo l s → pyStrip y = y := by
  intro l
  induction l with
  | nil => intro s y h; simp [dedupGo] at h
  | cons x xs ih =>
    intro s y h
    by_cases hx : normKey x ∈ s
    · exact ih s y (by simpa [dedupGo, hx] using h)
    · simp only [dedupGo, if_neg hx, List.mem_cons] at h
      rcases h with rfl | h
      · exact pyStrip_idem x
      · exact ih _ y h

theorem dedupGo_norms_nodup :
    ∀ (l s : List PStr),
      ((dedupGo l s).map normKey).Nodup ∧
      ∀ n ∈ (dedupGo l s).map normKey, n ∉ s := by
  intro l
  induction l with
  | nil => intro s; simp [dedupGo]
  | cons x xs ih =>
    intro s
    by_cases hx : normKey x ∈ s
    · simpa [dedupGo, hx] using ih s
    · obtain ⟨hnd, hdis⟩ := ih (normKey x :: s)
      simp only [dedupGo, if_neg hx, List.map, normKey_pyStrip]
      constructor
      · refine List.nodup_cons.mpr ⟨?_, hnd⟩
        intro hmem
        exact hdis _ hmem (List.mem_cons_self _ _)
      · intro n hn
        rcases List.mem_cons.mp hn with rfl | hn
        · exact hx
        · intro hns
          exact hdis n hn (List.mem_cons_of_mem _ hns)

theorem dedupGo_represents :
    ∀ (l s : List PStr) (x : PStr), x ∈ l → normKey x ∉ s →
      ∃ y ∈ dedupGo l s, normKey y = normKey x := by
  intro l
  induction l with
  | nil => intro s x h; simp at h
  | cons a xs ih =>
    intro s x hx hns
    by_cases ha : normKey a ∈ s
    · rcases List.mem_cons.mp hx with rfl | hx
      · exact absurd ha hns
      · obtain ⟨y, hy, hny⟩ := ih s x hx hns
        exact ⟨y, by simpa [dedupGo, ha] using hy, hny⟩
    · by_cases hax : normKey x = normKey a
      · refine ⟨pyStrip a, ?_, ?_⟩
        · simp [dedupGo, ha]
        · rw [normKey_pyStrip, hax]
      · rcases List.mem_cons.mp hx with rfl | hx
        · exact absurd rfl hax
        · obtain ⟨y, hy, hny⟩ := ih (normKey a :: s) x hx (by
            intro hmem
            rcases List.mem_cons.mp hmem with h | h
            · exact hax h
            · exact hns h)
          exact ⟨y, by simp [dedupGo, ha, hy], hny⟩

/-- C2 (amended): for every category key, the merged list represents
every input entry by an entry with the same normalised value, contains
no two entries with the same normalised value, is no longer than the
two inputs together, and is a subsequence of the stripped concatenation
of the inputs (first-appearance order, original casing, trimmed). -/
theorem merge_intelligence_no_loss (A B : Intel) (k : String)
    (hk : k ∈ intelKeys) :
    (∀ x ∈ dget A k ++ dget B k,
      ∃ y ∈ dget (merge_intelligence A B) k, normKey y = normKey x) ∧
    ((dget (merge_intelligence A B) k).map normKey).Nodup ∧
    (dget (merge_intelligence A B) k).length ≤
      (dget A k).length + (dget B k).length ∧
    List.Sublist (dget (merge_intelligence A B) k)
      ((dget A k ++ dget B k).map pyStrip) := by
  rw [dget_merge A B k hk]
  unfold mergeList
  refine ⟨?_, (dedupGo_norms_nodup _ []).1, ?_, dedupGo_sublist _ []⟩
  · intro x hx
    exact dedupGo_represents _ [] x hx (by simp)
  · simpa using dedupGo_length_le (dget A k ++ dget B k) []

/-- Witness for `merge_intelligence_no_loss` at a concrete instance. -/
theorem merge_intelligence_no_loss_witness :
    "phoneNumbers" ∈ intelKeys ∧
    (∀ x ∈ dget [("phoneNumbers", [String.toList "98765", String.toList " 98765 "])]
        "phoneNumbers" ++ dget empty_intel "phoneNumbers",
      ∃ y ∈ dget (merge_intelligence
          [("phoneNumbers", [String.toList "98765", String.toList " 98765 "])]
          empty_intel) "phoneNumbers", normKey y = normKey x) := by
  refine ⟨by simp [intelKeys], ?_⟩
  exact (merge_intelligence_no_loss
      [("phoneNumbers", [String.toList "98765", String.toList " 98765 "])]
      empty_intel "phoneNumbers" (by simp [intelKeys])).1

/-- C2 counterexample: the claim's "every entry present in A or B
appears in the result" fails verbatim — the merger strips entries, so
the entry `" 98765 "` of `A` does not itself appear in
`merge_intelligence(A, B)` (only its trimmed form does). -/
theorem merge_intelligence_drops_untrimmed_entry :
    String.toList " 98765 " ∈
      dget [("phoneNumbers", [String.toList " 98765 "])] "phoneNumbers" ∧
    String.toList " 98765 " ∉
      dget (merge_intelligence
        [("phoneNumbers", [String.toList " 98765 "])] empty_intel)
        "phoneNumbers" := by
  constructor
  · simp [dget, List.lookup]
  · decide

/-! ### Cross-turn accumulation (claim C3)

`honeypot_endpoint` (main.py 190-193) updates the session's cumulative
evidence with
`sess.extracted_intelligence = merge_intelligence(sess.extracted_intelligence, current_intel)`
starting from the all-empty record a fresh `Session` carries
(session.py 26-35, the same eight keys).  A session's cumulative record
after a sequence of turns is therefore a left fold of the merger over
the per-turn records. -/

/-- The cumulative evidence record of a session after the turns of
`ts` have been processed (each element: that turn's `current_intel`). -/
def cumulative_intel (ts : List Intel) : Intel :=
  ts.foldl merge_intelligence empty_intel

/-- Invariant of every merged list: entries are stripped and have
pairwise-distinct normalised values. -/
def StrippedNodup (l : List PStr) : Prop :=
  (∀ y ∈ l, pyStrip y = y) ∧ (l.map normKey).Nodup

theorem strippedNodup_mergeList (a b : List PStr) :
    StrippedNodup (mergeList a b) :=
  ⟨fun y hy => dedupGo_stripped _ [] y hy, (dedupGo_norms_nodup _ []).1⟩

theorem dedupGo_self_of_strippedNodup :
    ∀ (a : List PStr) (s : List PStr), StrippedNodup a →
      (∀ x ∈ a, normKey x ∉ s) → dedupGo a s = a := by
  intro a
  induction a with
  | nil => intro s _ _; rfl
  | cons x xs ih =>
    intro s ⟨hstr, hnd⟩ hdis
    rw [List.map_cons] at hnd
    obtain ⟨hxnot, hndt⟩ := List.nodup_cons.mp hnd
    have hx : normKey x ∉ s := hdis x (List.mem_cons_self _ _)
    simp only [dedupGo, if_neg hx]
    rw [hstr x (List.mem_cons_self _ _)]
    congr 1
    refine ih (normKey x :: s)
      ⟨fun y hy => hstr y (List.mem_cons_of_mem _ hy), hndt⟩ ?_
    intro y hy hmem
    rcases List.mem_cons.mp hmem with h | h
    · exact hxnot (h ▸ List.mem_map_of_mem normKey hy)
    · exact hdis y (List.mem_cons_of_mem _ hy) h

/-- Merging extends an already-canonical existing list on the right:
nothing already accumulated moves or disappears. -/
theorem mergeList_prefix (a b : List PStr) (h : StrippedNodup a) :
    mergeList a b = a ++ dedupGo b (accum a []) := by
  unfold mergeList
  rw [dedupGo_append a b []]
  rw [dedupGo_self_of_strippedNodup a [] h (by simp)]

/-- Cumulative records satisfy the canonical-entry invariant. -/
theorem cumulative_strippedNodup (ts : List Intel) (k : String)
    (hk : k ∈ intelKeys) : StrippedNodup (dget (cumulative_intel ts) k) := by
  unfold cumulative_intel
  induction ts using List.reverseRecOn with
  | nil =>
    rw [show dget (List.foldl merge_intelligence empty_intel []) k = [] from
      dget_empty_intel k]
    exact ⟨by simp, by simp⟩
  | append_singleton ts t _ =>
    rw [List.foldl_append]
    simp only [List.foldl]
    rw [dget_merge _ t k hk]
    exact strippedNodup_mergeList _ _

/-- C3: cumulative evidence never shrinks — every entry present at some
position of a category of the cumulative record before a turn is still
at the same position of the same category after the turn, whatever
evidence (`t`) the new turn contributes. -/
theorem cumulative_intel_never_shrinks (ts : List Intel) (t : Intel)
    (k : String) (i : ℕ) (hi : i < (dget (cumulative_intel ts) k).length) :
    (dget (cumulative_intel (ts ++ [t])) k).get? i =
      (dget (cumulative_intel ts) k).get? i := by
  have hfold : cumulative_intel (ts ++ [t]) =
      merge_intelligence (cumulative_intel ts) t := by
    unfold cumulative_intel
    rw [List.foldl_append]
    rfl
  by_cases hk : k ∈ intelKeys
  · rw [hfold, dget_merge _ t k hk,
      mergeList_prefix _ _ (cumulative_strippedNodup ts k hk)]
    exact List.get?_append hi
  · have h₁ : dget (cumulative_intel ts) k = [] := by
      unfold cumulative_intel
      induction ts using List.reverseRecOn with
      | nil => exact dget_empty_intel k
      | append_singleton ts' t' _ =>
        rw [List.foldl_append]
        exact dget_merge_not_mem _ t' k hk
    rw [h₁] at hi
    simp at hi

/-- Witness for `cumulative_intel_never_shrinks`: an entry recorded on
turn 1 is still at position 0 after a later turn that contributes
nothing. -/
theorem cumulative_intel_never_shrinks_witness :
    0 < (dget (cumulative_intel [[("phoneNumbers", [String.toList "98765"])]])
      "phoneNumbers").length ∧
    (dget (cumulative_intel ([[("phoneNumbers", [String.toList "98765"])]] ++
      [empty_intel])) "phoneNumbers").get? 0 =
      (dget (cumulative_intel [[("phoneNumbers", [String.toList "98765"])]])
        "phoneNumbers").get? 0 := by
  refine ⟨by decide, ?_⟩
  exact cumulative_intel_never_shrinks
    [[("phoneNumbers", [String.toList "98765"])]] empty_intel
    "phoneNumbers" 0 (by decide)

/-! ## Extractors (extractor.py 136-327)

Each extractor is embedded as a function of the raw match lists the
`re` library produces for its patterns on the input text, concatenated
in the order the source iterates the patterns.  The post-regex
filtering, normalisation and deduplication logic — which is what the
claims are about — is modelled exactly; the claims then hold for every
possible output of the regex engine, hence for every input text. -/

/-- The accumulation loop of `extract_phone_numbers`
(extractor.py 153-163): strip each match, keep it if its digit-only
form has 10-15 digits and was not already seen. -/
def phoneGo : List PStr → List PStr → List PStr
  | [], _ => []
  | m :: ms, seen =>
    let cleaned := pyStrip m
    let digits := pyDigits cleaned
    if 10 ≤ digits.length ∧ digits.length ≤ 15 ∧ digits ∉ seen then
      cleaned :: phoneGo ms (digits :: seen)
    else phoneGo ms seen

/-- `extract_phone_numbers` (extractor.py 136-165), as a function of
the matches of its seven patterns in pattern order. -/
def extract_phone_numbers (ms : List PStr) : List PStr := phoneGo ms []

/-- First loop of `extract_bank_accounts` (extractor.py 183-189):
digit-only forms of 10-18 digits, not seen, not a phone number.
Returns the results together with the final seen-set, which the second
loop continues from. -/
def bankGo1 : List PStr → List PStr → List PStr → List PStr × List PStr
  | [], seen, _ => ([], seen)
  | m :: ms, seen, pd =>
    let digits := pyDigits m
    if 10 ≤ digits.length ∧ digits.length ≤ 18 ∧ digits ∉ seen ∧ digits ∉ pd
    then
      let rest := bankGo1 ms (digits :: seen) pd
      (digits :: rest.1, rest.2)
    else bankGo1 ms seen pd

/-- Second loop of `extract_bank_accounts` (extractor.py 195-200): the
10-11 digit matches admitted only in banking context; no length check
is repeated here in the source. -/
def bankGo2 : List PStr → List PStr → List PStr → List PStr
  | [], _, _ => []
  | m :: ms, seen, pd =>
    let digits := pyDigits m
    if digits ∉ seen ∧ digits ∉ pd then digits :: bankGo2 ms (digits :: seen) pd
    else bankGo2 ms seen pd

/-- `extract_bank_accounts` (extractor.py 168-202): `phoneMs` are the
phone-pattern matches of the same text (the source recomputes
`extract_phone_numbers(text)` itself), `bankMs` the matches of the
three account patterns in order, `shortMs` the 10-11-digit matches, and
`bankingCtx` whether the lowered text contains a banking keyword. -/
def extract_bank_accounts (phoneMs bankMs shortMs : List PStr)
    (bankingCtx : Bool) : List PStr :=
  let pd := (extract_phone_numbers phoneMs).map pyDigits
  let r1 := bankGo1 bankMs [] pd
  if bankingCtx then r1.1 ++ bankGo2 shortMs r1.2 pd else r1.1

theorem bankGo1_not_phone :
    ∀ (ms seen pd : List PStr) (y : PStr), y ∈ (bankGo1 ms seen pd).1 →
      pyDigits y = y ∧ y ∉ pd := by
  intro ms
  induction ms with
  | nil => intro seen pd y h; simp [bankGo1] at h
  | cons m ms ih =>
    intro seen pd y h
    by_cases hc : 10 ≤ (pyDigits m).length ∧ (pyDigits m).length ≤ 18 ∧
        pyDigits m ∉ seen ∧ pyDigits m ∉ pd
    · simp only [bankGo1, if_pos hc, List.mem_cons] at h
      rcases h with rfl | h
      · exact ⟨pyDigits_idem m, hc.2.2.2⟩
      · exact ih _ pd y h
    · simp only [bankGo1, if_neg hc] at h
      exact ih _ pd y h

theorem bankGo2_not_phone :
    ∀ (ms seen pd : List PStr) (y : PStr), y ∈ bankGo2 ms seen pd →
      pyDigits y = y ∧ y ∉ pd := by
  intro ms
  induction ms with
  | nil => intro seen pd y h; simp [bankGo2] at h
  | cons m ms ih =>
    intro seen pd y h
    by_cases hc : pyDigits m ∉ seen ∧ pyDigits m ∉ pd
    · simp only [bankGo2, if_pos hc, List.mem_cons] at h
      rcases h with rfl | h
      · exact ⟨pyDigits_idem m, hc.2⟩
      · exact ih _ pd y h
    · simp only [bankGo2, if_neg hc] at h
      exact ih _ pd y h

/-- C4: phone numbers take precedence over bank accounts — for any
text (i.e. for every output of the regex engine on it), no extracted
bank-account entry has the digit-only form of any phone number
extracted from the same text. -/
theorem bank_accounts_exclude_phone_digits (phoneMs bankMs shortMs : List PStr)
    (bankingCtx : Bool) (y p : PStr)
    (hy : y ∈ extract_bank_accounts phoneMs bankMs shortMs bankingCtx)
    (hp : p ∈ extract_phone_numbers phoneMs) :
    pyDigits y ≠ pyDigits p := by
  have hmem : pyDigits p ∈ (extract_phone_numbers phoneMs).map pyDigits :=
    List.mem_map_of_mem pyDigits hp
  have hy' : pyDigits y = y ∧
      y ∉ (extract_phone_numbers phoneMs).map pyDigits := by
    unfold extract_bank_accounts at hy
    by_cases hb : bankingCtx
    · rw [if_pos hb] at hy
      rcases List.mem_append.mp hy with h | h
      · exact bankGo1_not_phone _ _ _ y h
      · exact bankGo2_not_phone _ _ _ y h
    · rw [if_neg hb] at hy
      exact bankGo1_not_phone _ _ _ y hy
  intro heq
  rw [hy'.1] at heq
  exact hy'.2 (heq ▸ hmem)

/-- Witness for `bank_accounts_exclude_phone_digits` on a concrete
text: `"call 9876543210 account 123456789012"`, whose phone matches are
`["9876543210"]` and account matches `["123456789012"]`. -/
theorem bank_accounts_exclude_phone_digits_witness :
    String.toList "123456789012" ∈
      extract_bank_accounts [String.toList "9876543210"]
        [String.toList "123456789012"] [] true ∧
    String.toList "9876543210" ∈
      extract_phone_numbers [String.toList "9876543210"] ∧
    pyDigits (String.toList "123456789012") ≠
      pyDigits (String.toList "9876543210") := by
  refine ⟨by decide, by decide, ?_⟩
  exact bank_accounts_exclude_phone_digits
    [String.toList "9876543210"] [String.toList "123456789012"] [] true
    _ _ (by decide) (by decide)

/-! ## A small regex engine

Backtracking matcher with Python `re` semantics for the constructs the
source's patterns use: character classes, concatenation, ordered
alternation, greedy `*`/`+`/`{m,n}`, the word boundary `\b` and the
end anchor `$`.  Matching is continuation-passing: the first full
success found in preference order (leftmost start, greedy quantifiers,
earlier alternatives first) wins, exactly as in Python.  A fuel
argument bounds the recursion depth; all uses are on concrete inputs
where the fuel is ample. -/

inductive RE where
  | eps
  | cls (p : Char → Bool)
  | seq (a b : RE)
  | alt (a b : RE)
  | star (a : RE)
  | wordB
  | eos

/-- Python `\w` (ASCII model). -/
def isWordChar (c : Char) : Bool := c.isAlphanum || c = '_'

/-- `\b` between a previous character and the next one. -/
def isWordBoundary (prev next : Option Char) : Bool :=
  (match prev with | some c => isWordChar c | none => false) !=
  (match next with | some c => isWordChar c | none => false)

/-- The matcher.  `k` is the success continuation, receiving the last
consumed character and the remaining input; returning `none` from `k`
resumes backtracking. -/
def reM : Nat → RE → Option Char → PStr →
    (Option Char → PStr → Option PStr) → Option PStr
  | 0, _, _, _, _ => none
  | Nat.succ _, RE.eps, prev, s, k => k prev s
  | Nat.succ _, RE.cls p, _, s, k =>
    match s with
    | [] => none
    | c :: rest => if p c then k (some c) rest else none
  | Nat.succ f, RE.seq a b, prev, s, k =>
    reM f a prev s fun p' s' => reM f b p' s' k
  | Nat.succ f, RE.alt a b, prev, s, k =>
    match reM f a prev s k with
    | some r => some r
    | none => reM f b prev s k
  | Nat.succ f, RE.star a, prev, s, k =>
    match reM f a prev s (fun p' s' => reM f (RE.star a) p' s' k) with
    | some r => some r
    | none => k prev s
  | Nat.succ _, RE.wordB, prev, s, k =>
    if isWordBoundary prev s.head? then k prev s else none
  | Nat.succ _, RE.eos, prev, s, k =>
    match s with
    | [] => k prev s
    | _ => none

/-- Depth budget for the matcher on the concrete texts below. -/
def reFuel : Nat := 2000

/-- Length of the match of `r` starting exactly here, if any. -/
def reMatchHere (r : RE) (prev : Option Char) (s : PStr) : Option Nat :=
  match reM reFuel r prev s (fun _ rest => some rest) with
  | some rest => some (s.length - rest.length)
  | none => none

/-- `re.findall` (the source's patterns wrap the entire match in group
1, with only zero-width assertions outside it, so the group equals the
match). -/
def reFindAux : Nat → RE → Option Char → PStr → List PStr
  | 0, _, _, _ => []
  | Nat.succ f, r, prev, s =>
    match reMatchHere r prev s with
    | some len =>
      if len = 0 then
        match s with
        | [] => [[]]
        | c :: rest => [] :: reFindAux f r (some c) rest
      else
        let m := s.take len
        m :: reFindAux f r m.getLast? (s.drop len)
    | none =>
      match s with
      | [] => []
      | c :: rest => reFindAux f r (some c) rest

def reFindall (r : RE) (s : PStr) : List PStr := reFindAux (s.length + 1) r none s

/-- `re.search(...) is not None`. -/
def reSearchAux : Nat → RE → Option Char → PStr → Bool
  | 0, _, _, _ => false
  | Nat.succ f, r, prev, s =>
    match reMatchHere r prev s with
    | some _ => true
    | none =>
      match s with
      | [] => false
      | c :: rest => reSearchAux f r (some c) rest

def reSearch (r : RE) (s : PStr) : Bool := reSearchAux (s.length + 1) r none s

/-- A literal compiled with `re.IGNORECASE` (the source's literals are
lowercase). -/
def lit1 (c : Char) : RE := RE.cls fun d => d.toLower = c

def lit (w : String) : RE := w.toList.foldr (fun c r => RE.seq (lit1 c) r) RE.eps

/-- Ordered alternation of a list of alternatives (a final
never-matching alternative closes the fold without changing the
semantics). -/
def altList (rs : List RE) : RE := rs.foldr RE.alt (RE.cls fun _ => false)

def rePlus (a : RE) : RE := RE.seq a (RE.star a)

def repExact (a : RE) : Nat → RE
  | 0 => RE.eps
  | Nat.succ n => RE.seq a (repExact a n)

/-- Up to `n` greedy repetitions (`{0,n}`): prefer consuming more. -/
def upTo (a : RE) : Nat → RE
  | 0 => RE.eps
  | Nat.succ n => RE.alt (RE.seq a (upTo a n)) RE.eps

/-- `{lo,hi}` greedy. -/
def repRange (a : RE) (lo hi : Nat) : RE := RE.seq (repExact a lo) (upTo a (hi - lo))

/-- `{n,}` greedy. -/
def repGe (a : RE) (n : Nat) : RE := RE.seq (repExact a n) (RE.star a)

/-! ## UPI and email extraction (extractor.py 205-275) -/

/-- The alternatives of `upi_banks` (extractor.py 208-217), in source
order; the final catch-all `[a-z]{2,15}` is appended in `upiTailRE`. -/
def upiBankNames : List String :=
  ["upi", "ybl", "paytm", "oksbi", "okicici", "okaxis", "okhdfcbank",
   "okbizaxis", "apl", "ibl", "sbi", "icici", "hdfc", "axis", "kotak",
   "bob", "pnb", "canara", "union", "boi", "uco", "idbi", "indian",
   "central", "baroda", "dbs", "rbl", "indus", "yes", "citi", "sc",
   "freecharge", "mobikwik", "jio", "airtel", "phonepe", "gpay",
   "amazonpay", "axisbank", "hdfcbank", "sbibank", "icicibank",
   "kotakbank", "fakebank", "fakeupi", "testbank", "demobank", "scam",
   "fraud", "fake"]

def upiTailRE : RE :=
  altList (upiBankNames.map lit ++ [repRange (RE.cls Char.isAlpha) 2 15])

/-- `([\w][\w.-]*@(?:upi_banks))\b` with `re.IGNORECASE`
(extractor.py 219); `[a-z]` matches both cases under IGNORECASE. -/
def upiRE : RE :=
  RE.seq (RE.cls isWordChar)
    (RE.seq (RE.star (RE.cls fun c => isWordChar c || c = '.' || c = '-'))
      (RE.seq (RE.cls fun c => c = '@') (RE.seq upiTailRE RE.wordB)))

/-- `\b([a-zA-Z0-9][a-zA-Z0-9._%+-]+@[a-zA-Z0-9.-]+\.[a-zA-Z]{2,})\b`
(extractor.py 262). -/
def emailRE : RE :=
  RE.seq RE.wordB
    (RE.seq (RE.cls Char.isAlphanum)
      (RE.seq (rePlus (RE.cls fun c =>
          c.isAlphanum || c = '.' || c = '_' || c = '%' || c = '+' || c = '-'))
        (RE.seq (RE.cls fun c => c = '@')
          (RE.seq (rePlus (RE.cls fun c => c.isAlphanum || c = '.' || c = '-'))
            (RE.seq (RE.cls fun c => c = '.')
              (RE.seq (repGe (RE.cls Char.isAlpha) 2) RE.wordB))))))

/-- The TLD allowlist of `extract_emails` (extractor.py 270), in source
order. -/
def tldNames : List String :=
  ["com", "org", "net", "in", "co", "io", "gov", "edu", "info", "biz",
   "me", "xyz", "online", "site", "tech", "app", "dev", "cloud", "mail",
   "email", "store", "shop", "pro", "name", "mobi", "tel", "asia", "us",
   "uk", "ca", "au", "de", "fr", "jp", "ru", "br", "za", "ng", "ke"]

/-- `re.search(r'\.(com|org|...)$', cleaned, re.IGNORECASE)`. -/
def tldRE : RE := RE.seq (RE.cls fun c => c = '.') (RE.seq (altList (tldNames.map lit)) RE.eos)

/-- `cleaned.split('@', 1)[1] if '@' in cleaned else ''`
(extractor.py 227). -/
def afterAt (s : PStr) : PStr :=
  if '@' ∈ s then (s.dropWhile fun c => c ≠ '@').drop 1 else []

/-- The filter loop of `extract_upi_ids` (extractor.py 222-233): strip
the match, reject it when a dot follows the `@`, deduplicate on the
lowered value. -/
def upiGo : List PStr → List PStr → List PStr
  | [], _ => []
  | m :: ms, seen =>
    let cleaned := pyStrip m
    if '.' ∈ afterAt cleaned then upiGo ms seen
    else if pyLower cleaned ∈ seen then upiGo ms seen
    else cleaned :: upiGo ms (pyLower cleaned :: seen)

/-- `extract_upi_ids` (extractor.py 205-235) as a function of the
matches of its single pattern. -/
def extract_upi_ids (ms : List PStr) : List PStr := upiGo ms []

/-- Python `s.rstrip('.')`. -/
def rstripDot (s : PStr) : PStr := (s.reverse.dropWhile fun c => c = '.').reverse

/-- The filter loop of `extract_emails` (extractor.py 266-273): strip,
drop trailing dots, require a recognised TLD suffix, deduplicate on the
lowered value. -/
def emailGo : List PStr → List PStr → List PStr
  | [], _ => []
  | m :: ms, seen =>
    let cleaned := rstripDot (pyStrip m)
    if reSearch tldRE cleaned then
      if pyLower cleaned ∈ seen then emailGo ms seen
      else cleaned :: emailGo ms (pyLower cleaned :: seen)
    else emailGo ms seen

/-- `extract_emails` (extractor.py 260-275) as a function of the
matches of its pattern. -/
def extract_emails (ms : List PStr) : List PStr := emailGo ms []

theorem upiGo_no_dot_after_at :
    ∀ (ms seen : List PStr) (y : PStr), y ∈ upiGo ms seen →
      '.' ∉ afterAt y := by
  intro ms
  induction ms with
  | nil => intro seen y h; simp [upiGo] at h
  | cons m ms ih =>
    intro seen y h
    by_cases hdot : '.' ∈ afterAt (pyStrip m)
    · simp only [upiGo, if_pos hdot] at h
      exact ih seen y h
    · by_cases hseen : pyLower (pyStrip m) ∈ seen
      · simp only [upiGo, if_neg hdot, if_pos hseen] at h
        exact ih seen y h
      · simp only [upiGo, if_neg hdot, if_neg hseen, List.mem_cons] at h
        rcases h with rfl | h
        · exact hdot
        · exact ih _ y h

/-- C5: email versus payment-handle disambiguation.  On the text
`"pay me at scam@fakebank"`, `scam@fakebank` is extracted as a UPI
handle and nothing is extracted as an email; on
`"contact fraud@fake-bank.com"`, `fraud@fake-bank.com` is extracted as
an email and is not among the UPI handles; and in general no extracted
UPI handle has a dot after its `@` (extractor.py 227-230 rejects such
matches).  The concrete parts evaluate the source's own patterns with
the regex engine above. -/
theorem upi_email_disambiguation :
    extract_upi_ids (reFindall upiRE (String.toList "pay me at scam@fakebank")) =
      [String.toList "scam@fakebank"] ∧
    extract_emails (reFindall emailRE (String.toList "pay me at scam@fakebank")) =
      [] ∧
    String.toList "fraud@fake-bank.com" ∈
      extract_emails (reFindall emailRE (String.toList "contact fraud@fake-bank.com")) ∧
    String.toList "fraud@fake-bank.com" ∉
      extract_upi_ids (reFindall upiRE (String.toList "contact fraud@fake-bank.com")) ∧
    ∀ (ms : List PStr) (y : PStr), y ∈ extract_upi_ids ms → '.' ∉ afterAt y := by
  refine ⟨by decide, by decide, by decide, by decide, ?_⟩
  intro ms y h
  exact upiGo_no_dot_after_at ms [] y h

/-- Witness for the hypothesis-bearing part of
`upi_email_disambiguation`: applied to the concrete handle extracted
from the first text. -/
theorem upi_email_disambiguation_witness :
    String.toList "scam@fakebank" ∈
      extract_upi_ids [String.toList "scam@fakebank"] ∧
    '.' ∉ afterAt (String.toList "scam@fakebank") := by
  refine ⟨by decide, ?_⟩
  exact upi_email_disambiguation.2.2.2.2 [String.toList "scam@fakebank"] _
    (by decide)

/-! ## The remaining extractors and `extract_all` (claim C6) -/

/-- Python `s.rstrip('.,;:!?)\x27">')` used by `extract_urls`
(extractor.py 252). -/
def rstripUrlPunct (s : PStr) : PStr :=
  (s.reverse.dropWhile fun c =>
    c = '.' || c = ',' || c = ';' || c = ':' || c = '!' || c = '?' ||
    c = ')' || c = '\'' || c = '"' || c = '>').reverse

/-- The filter loop of `extract_urls` (extractor.py 249-255): strip
trailing punctuation, keep matches longer than 8, deduplicate on the
lowered value. -/
def urlGo : List PStr → List PStr → List PStr
  | [], _ => []
  | m :: ms, seen =>
    let cleaned := rstripUrlPunct m
    if 8 < cleaned.length ∧ pyLower cleaned ∉ seen then
      cleaned :: urlGo ms (pyLower cleaned :: seen)
    else urlGo ms seen

/-- `extract_urls` (extractor.py 238-257). -/
def extract_urls (ms : List PStr) : List PStr := urlGo ms []

/-- The shared filter loop of `extract_case_ids`,
`extract_policy_numbers` and `extract_order_numbers`
(extractor.py 285-291, 302-308, 319-325): strip and deduplicate on the
lowered value. -/
def refGo : List PStr → List PStr → List PStr
  | [], _ => []
  | m :: ms, seen =>
    let cleaned := pyStrip m
    if pyLower cleaned ∈ seen then refGo ms seen
    else cleaned :: refGo ms (pyLower cleaned :: seen)

def extract_case_ids (ms : List PStr) : List PStr := refGo ms []

def extract_policy_numbers (ms : List PStr) : List PStr := refGo ms []

def extract_order_numbers (ms : List PStr) : List PStr := refGo ms []

/-- The argument `extract_all` receives: `None`, a string, or a value
of any other type (`isinstance(text, str)` fails). -/
inductive PyVal where
  | noneV
  | str (s : PStr)
  | other

/-- The regex-engine outputs for one text, one list per pattern family
in source order, plus the banking-context test of
`extract_bank_accounts` (extractor.py 192-194). -/
structure Oracles where
  phoneMs : List PStr
  bankMs : List PStr
  bankShortMs : List PStr
  bankingCtx : Bool
  upiMs : List PStr
  urlMs : List PStr
  emailMs : List PStr
  caseMs : List PStr
  policyMs : List PStr
  orderMs : List PStr

/-- `extract_all` (extractor.py 15-41).  `llm` models the contribution
of the guarded enrichment call (lines 34-39): `some d` when the API key
is configured, the text is long enough and `extract_with_llm` returns
`d`; `none` when any of that fails — the `except` branch drops the
contribution and keeps `regex_intel`. -/
def extract_all (v : PyVal) (o : Oracles) (llm : Option Intel) : Intel :=
  match v with
  | PyVal.noneV => empty_intel
  | PyVal.other => empty_intel
  | PyVal.str s =>
    if s = [] then empty_intel
    else
      let regex_intel : Intel :=
        [("phoneNumbers", extract_phone_numbers o.phoneMs),
         ("bankAccounts",
           extract_bank_accounts o.phoneMs o.bankMs o.bankShortMs o.bankingCtx),
         ("upiIds", extract_upi_ids o.upiMs),
         ("phishingLinks", extract_urls o.urlMs),
         ("emailAddresses", extract_emails o.emailMs),
         ("caseIds", extract_case_ids o.caseMs),
         ("policyNumbers", extract_policy_numbers o.policyMs),
         ("orderNumbers", extract_order_numbers o.orderMs)]
      match llm with
      | some d => merge_intelligence regex_intel d
      | none => regex_intel

/-- `not text or not isinstance(text, str)` (extractor.py 17). -/
def invalidInput : PyVal → Bool
  | PyVal.noneV => true
  | PyVal.other => true
  | PyVal.str s => s = []

theorem map_fst_keyed (f : String → List PStr) :
    ∀ ks : List String, (ks.map fun k => (k, f k)).map Prod.fst = ks := by
  intro ks
  induction ks with
  | nil => rfl
  | cons a t ih => simp only [List.map, ih]

theorem keys_merge_intelligence (e n : Intel) :
    (merge_intelligence e n).map Prod.fst = intelKeys := by
  show (intelKeys.map fun k =>
      (k, mergeList (dget e k) (dget n k))).map Prod.fst = intelKeys
  exact map_fst_keyed _ intelKeys

/-- C6: `extract_all` is total (a Lean function of the input value,
the regex outputs and the optional enrichment record) and
shape-complete: the returned dict always carries exactly the eight
category keys in order, and an empty or non-string input yields the
all-empty record. -/
theorem extract_all_total_shape (v : PyVal) (o : Oracles) (llm : Option Intel) :
    (extract_all v o llm).map Prod.fst = intelKeys ∧
    (invalidInput v = true → extract_all v o llm = empty_intel) := by
  constructor
  · cases v with
    | noneV =>
      show empty_intel.map Prod.fst = intelKeys
      exact map_fst_keyed (fun _ => []) intelKeys
    | other =>
      show empty_intel.map Prod.fst = intelKeys
      exact map_fst_keyed (fun _ => []) intelKeys
    | str s =>
      by_cases hs : s = []
      · simp only [extract_all, if_pos hs]
        exact map_fst_keyed (fun _ => []) intelKeys
      · cases llm with
        | none => simp [extract_all, if_neg hs, intelKeys]
        | some d =>
          simp only [extract_all, if_neg hs]
          exact keys_merge_intelligence _ d
  · intro hv
    cases v with
    | noneV => rfl
    | other => rfl
    | str s =>
      have hs : s = [] := by simpa [invalidInput] using hv
      simp [extract_all, if_pos hs]

/-- Witness for `extract_all_total_shape`: the empty-string input. -/
theorem extract_all_total_shape_witness :
    invalidInput (PyVal.str []) = true ∧
    extract_all (PyVal.str [])
      ⟨[], [], [], false, [], [], [], [], [], []⟩ none = empty_intel := by
  refine ⟨rfl, ?_⟩
  exact (extract_all_total_shape (PyVal.str [])
    ⟨[], [], [], false, [], [], [], [], [], []⟩ none).2 rfl

/-! ## The fraud classifier (`detect_scam`, detector.py 94-163)

The six categories of `SCAM_PATTERNS` in declaration order, with their
weights.  A category's score is `weight × (number of its patterns that
match the analysis window)` — the source accumulates `score += weight`
once per matching pattern (detector.py 126-133) — and the urgency score
counts matching urgency patterns (137-141).  Which patterns match is
the regex engine's business, so `detect_scam` is modelled as a function
of the per-category match counts and the urgency count.

Arithmetic is exact (`ℚ`).  The source computes with IEEE doubles;
accumulated representation error there only decides which way
`round(·, 2)` breaks at half-cent boundary values (multiples of
0.005 that are not multiples of 0.01), a fine structure below this
embedding.  The counterexample below sits at a point where the double
computation and the exact computation round identically. -/

inductive Cat where
  | bank_fraud
  | upi_fraud
  | phishing
  | investment_scam
  | lottery_scam
  | generic_scam
deriving DecidableEq

/-- The dict-insertion (= declaration) order of `SCAM_PATTERNS`
(detector.py 12-82), which is the iteration order of
`max(scores, key=scores.get)`. -/
def declOrder : List Cat :=
  [Cat.bank_fraud, Cat.upi_fraud, Cat.phishing, Cat.investment_scam,
   Cat.lottery_scam, Cat.generic_scam]

/-- The position of a category in `SCAM_PATTERNS`' declaration order. -/
def declIdx : Cat → ℕ
  | Cat.bank_fraud => 0
  | Cat.upi_fraud => 1
  | Cat.phishing => 2
  | Cat.investment_scam => 3
  | Cat.lottery_scam => 4
  | Cat.generic_scam => 5

/-- The `"weight"` entries of `SCAM_PATTERNS`. -/
def weight : Cat → ℚ
  | Cat.bank_fraud => 1
  | Cat.upi_fraud => 1
  | Cat.phishing => 1
  | Cat.investment_scam => 9/10
  | Cat.lottery_scam => 9/10
  | Cat.generic_scam => 1/2

/-- `scores[scam_type]` for a given vector of per-category match
counts. -/
def score (counts : Cat → ℕ) (c : Cat) : ℚ := weight c * counts c

/-- Python's `max(iterable, key=f)`: fold keeping the current best,
replacing it only on a strictly greater key — the first maximal
element wins. -/
def pyMaxBy (f : Cat → ℚ) (b : Cat) (l : List Cat) : Cat :=
  l.foldl (fun best c => if f best < f c then c else best) b

/-- `max(scores, key=scores.get)` over the scores dict (detector.py
148). -/
def typeChoice (counts : Cat → ℕ) : Cat :=
  pyMaxBy (score counts) Cat.bank_fraud
    [Cat.upi_fraud, Cat.phishing, Cat.investment_scam, Cat.lottery_scam,
     Cat.generic_scam]

/-- `best_type` (detector.py 144-151): the arg-max if its score is
positive, else the `"generic_scam"` default. -/
def bestType (counts : Cat → ℕ) : Cat :=
  if 0 < score counts (typeChoice counts) then typeChoice counts
  else Cat.generic_scam

/-- `best_score` (detector.py 145-151). -/
def bestScore (counts : Cat → ℕ) : ℚ :=
  if 0 < score counts (typeChoice counts) then score counts (typeChoice counts)
  else 0

/-- Round-half-even to an integer (Python's `round` on an exactly
representable value). -/
def rhe (q : ℚ) : ℤ :=
  if q - ⌊q⌋ < 1/2 then ⌊q⌋
  else if 1/2 < q - ⌊q⌋ then ⌊q⌋ + 1
  else if ⌊q⌋ % 2 = 0 then ⌊q⌋ else ⌊q⌋ + 1

/-- `round(x, 2)`. -/
def round2 (q : ℚ) : ℚ := (rhe (q * 100) : ℚ) / 100

/-- `confidence` (detector.py 153-163): the capped-and-floored affine
function of the total evidence, rounded to two decimals on return. -/
def confidence (counts : Cat → ℕ) (u : ℕ) : ℚ :=
  round2 (min (99/100) (3/5 + (bestScore counts + u) * (1/20)))

/-- The dictionary `detect_scam` returns (detector.py 157-163); the
`indicators` list is independent of these claims and omitted. -/
structure DetectResult where
  is_scam : Bool
  scam_type : Cat
  conf : ℚ
  urgency_level : ℕ

/-- `detect_scam(text, history)` as a function of the match counts of
the analysis window (current text plus scammer-authored history). -/
def detect_scam (counts : Cat → ℕ) (u : ℕ) : DetectResult :=
  { is_scam := true
    scam_type := bestType counts
    conf := confidence counts u
    urgency_level := min u 5 }

/-! ### Properties of the arg-max (claims C7, C8) -/

theorem weight_pos (c : Cat) : 0 < weight c := by
  cases c <;> norm_num [weight]

theorem score_nonneg (counts : Cat → ℕ) (c : Cat) : 0 ≤ score counts c :=
  mul_nonneg (le_of_lt (weight_pos c)) (Nat.cast_nonneg _)

/-- Python's `max(..., key=f)` splits its input around its result: a
strictly smaller part before it (so the first maximum wins) and a
never-larger part after it. -/
theorem pyMaxBy_split (f : Cat → ℚ) :
    ∀ (l : List Cat) (b : Cat),
      ∃ pre post, b :: l = pre ++ pyMaxBy f b l :: post ∧
        (∀ c ∈ pre, f c < f (pyMaxBy f b l)) ∧
        (∀ c ∈ post, f c ≤ f (pyMaxBy f b l)) := by
  intro l
  induction l with
  | nil =>
    intro b
    exact ⟨[], [], rfl, by simp, by simp⟩
  | cons c l' ih =>
    intro b
    by_cases h : f b < f c
    · have hfold : pyMaxBy f b (c :: l') = pyMaxBy f c l' := by
        simp only [pyMaxBy, List.foldl, if_pos h]
      rw [hfold]
      obtain ⟨pre, post, heq, hpre, hpost⟩ := ih c
      have hcle : f c ≤ f (pyMaxBy f c l') := by
        cases pre with
        | nil =>
          simp only [List.nil_append] at heq
          injection heq with h1 _
          exact le_of_eq (congrArg f h1)
        | cons p pre₁ =>
          simp only [List.cons_append] at heq
          injection heq with h1 _
          have hcp : f c = f p := congrArg f h1
          rw [hcp]
          exact le_of_lt (hpre p (List.mem_cons_self _ _))
      refine ⟨b :: pre, post, ?_, ?_, hpost⟩
      · rw [List.cons_append, ← heq]
      · intro x hx
        rcases List.mem_cons.mp hx with rfl | hx
        · exact lt_of_lt_of_le h hcle
        · exact hpre x hx
    · have hfold : pyMaxBy f b (c :: l') = pyMaxBy f b l' := by
        simp only [pyMaxBy, List.foldl, if_neg h]
      rw [hfold]
      obtain ⟨pre, post, heq, hpre, hpost⟩ := ih b
      cases pre with
      | nil =>
        simp only [List.nil_append] at heq
        injection heq with h1 h2
        refine ⟨[], c :: l', ?_, by simp, ?_⟩
        · rw [List.nil_append, ← h1]
        · intro x hx
          rw [← h1]
          rcases List.mem_cons.mp hx with rfl | hx
          · exact le_of_not_lt h
          · have hx' := hpost x (h2 ▸ hx)
            rwa [← h1] at hx'
      | cons p pre₁ =>
        simp only [List.cons_append] at heq
        injection heq with h1 h2
        subst h1
        refine ⟨b :: c :: pre₁, post, ?_, ?_, hpost⟩
        · rw [List.cons_append, List.cons_append, ← h2]
        · intro x hx
          rcases List.mem_cons.mp hx with rfl | hx
          · exact hpre x (List.mem_cons_self _ _)
          · rcases List.mem_cons.mp hx with rfl | hx
            · exact lt_of_le_of_lt (le_of_not_lt h)
                (hpre b (List.mem_cons_self _ _))
            · exact hpre x (List.mem_cons_of_mem _ hx)

/-- Splitting the concrete declaration order around an element puts
everything after it at a strictly larger declaration index. -/
theorem declOrder_split_idx (pre post : List Cat) (t : Cat)
    (heq : declOrder = pre ++ t :: post) :
    ∀ c ∈ post, declIdx t < declIdx c := by
  rcases pre with _ | ⟨a0, _ | ⟨a1, _ | ⟨a2, _ | ⟨a3, _ | ⟨a4, _ | ⟨a5, pre⟩⟩⟩⟩⟩⟩ <;>
    simp only [declOrder, List.cons_append, List.nil_append,
      List.cons.injEq] at heq
  · obtain ⟨rfl, rfl⟩ := heq
    intro c hc
    fin_cases hc <;> decide
  · obtain ⟨rfl, rfl, rfl⟩ := heq
    intro c hc
    fin_cases hc <;> decide
  · obtain ⟨rfl, rfl, rfl, rfl⟩ := heq
    intro c hc
    fin_cases hc <;> decide
  · obtain ⟨rfl, rfl, rfl, rfl, rfl⟩ := heq
    intro c hc
    fin_cases hc <;> decide
  · obtain ⟨rfl, rfl, rfl, rfl, rfl, rfl⟩ := heq
    intro c hc
    fin_cases hc <;> decide
  · obtain ⟨rfl, rfl, rfl, rfl, rfl, rfl, rfl⟩ := heq
    intro c hc
    simp at hc
  · obtain ⟨_, _, _, _, _, _, h⟩ := heq
    exact absurd h (by simp)

/-- C8: category selection.  For every input (every vector of match
counts) and any urgency count, the category `detect_scam` returns
scores at least as high as every category, is the first-declared
category among those attaining its (positive) score, and is the
`generic_scam` default when every score is zero. -/
theorem detect_scam_category_selection (counts : Cat → ℕ) (u : ℕ) :
    (∀ c ∈ declOrder,
      score counts c ≤ score counts (detect_scam counts u).scam_type) ∧
    (0 < score counts (detect_scam counts u).scam_type →
      ∀ c ∈ declOrder,
        score counts c = score counts (detect_scam counts u).scam_type →
          declIdx (detect_scam counts u).scam_type ≤ declIdx c) ∧
    ((∀ c ∈ declOrder, score counts c = 0) →
      (detect_scam counts u).scam_type = Cat.generic_scam) := by
  have hresult : (detect_scam counts u).scam_type = bestType counts := rfl
  obtain ⟨pre, post, heq, hpre, hpost⟩ :=
    pyMaxBy_split (score counts)
      [Cat.upi_fraud, Cat.phishing, Cat.investment_scam, Cat.lottery_scam,
       Cat.generic_scam] Cat.bank_fraud
  have horder : declOrder = pre ++ typeChoice counts :: post := heq
  have hmax : ∀ c ∈ declOrder, score counts c ≤ score counts (typeChoice counts) := by
    intro c hc
    rw [horder] at hc
    rcases List.mem_append.mp hc with hc | hc
    · exact le_of_lt (hpre c hc)
    · rcases List.mem_cons.mp hc with rfl | hc
      · exact le_refl _
      · exact hpost c hc
  by_cases hpos : 0 < score counts (typeChoice counts)
  · have hbt : bestType counts = typeChoice counts := if_pos hpos
    rw [hresult, hbt]
    refine ⟨hmax, ?_, ?_⟩
    · intro _ c hc hceq
      rw [horder] at hc
      rcases List.mem_append.mp hc with hc | hc
      · exact absurd hceq (ne_of_lt (hpre c hc))
      · rcases List.mem_cons.mp hc with rfl | hc
        · exact le_refl _
        · exact le_of_lt (declOrder_split_idx pre post _ horder c hc)
    · intro hzero
      have := hzero (typeChoice counts) (by
        rw [horder]
        exact List.mem_append_right _ (List.mem_cons_self _ _))
      rw [this] at hpos
      exact absurd hpos (lt_irrefl 0)
  · have hbt : bestType counts = Cat.generic_scam := if_neg hpos
    rw [hresult, hbt]
    have hzero : score counts (typeChoice counts) = 0 :=
      le_antisymm (le_of_not_lt hpos) (score_nonneg counts _)
    have hallzero : ∀ c ∈ declOrder, score counts c = 0 := by
      intro c hc
      exact le_antisymm (hzero ▸ hmax c hc) (score_nonneg counts c)
    refine ⟨?_, ?_, fun _ => rfl⟩
    · intro c hc
      rw [hallzero c hc,
        hallzero Cat.generic_scam (by simp [declOrder])]
    · intro hg
      rw [hallzero Cat.generic_scam (by simp [declOrder])] at hg
      exact absurd hg (lt_irrefl 0)

/-- Witness for `detect_scam_category_selection`: with no matches at
all, the default `generic_scam` is assigned. -/
theorem detect_scam_category_selection_witness :
    (∀ c ∈ declOrder, score (fun _ => 0) c = 0) ∧
    (detect_scam (fun _ => 0) 0).scam_type = Cat.generic_scam := by
  refine ⟨by intro c _; simp [score], ?_⟩
  exact (detect_scam_category_selection (fun _ => 0) 0).2.2
    (by intro c _; simp [score])

/-! ### Confidence (claim C7) -/

/-- The winning score described by the spec: the largest per-category
weighted score (zero when nothing matches). -/
def specMaxScore (counts : Cat → ℕ) : ℚ :=
  (declOrder.map (score counts)).foldr max 0

theorem foldr_max_ge_zero : ∀ l : List ℚ, 0 ≤ l.foldr max 0 := by
  intro l
  induction l with
  | nil => exact le_refl 0
  | cons x t ih => exact le_trans ih (le_max_right x _)

theorem foldr_max_ge : ∀ (l : List ℚ) (x : ℚ), x ∈ l → x ≤ l.foldr max 0 := by
  intro l
  induction l with
  | nil => intro x h; simp at h
  | cons a t ih =>
    intro x h
    rcases List.mem_cons.mp h with rfl | h
    · exact le_max_left _ _
    · exact le_trans (ih x h) (le_max_right a _)

theorem foldr_max_le : ∀ (l : List ℚ) (v : ℚ), 0 ≤ v → (∀ x ∈ l, x ≤ v) →
    l.foldr max 0 ≤ v := by
  intro l
  induction l with
  | nil => intro v hv _; exact hv
  | cons a t ih =>
    intro v hv h
    exact max_le (h a (List.mem_cons_self _ _))
      (ih v hv fun x hx => h x (List.mem_cons_of_mem _ hx))

/-- `best_score` as computed by the source equals the spec's maximal
weighted score. -/
theorem bestScore_eq_specMax (counts : Cat → ℕ) :
    bestScore counts = specMaxScore counts := by
  obtain ⟨pre, post, heq, hpre, hpost⟩ :=
    pyMaxBy_split (score counts)
      [Cat.upi_fraud, Cat.phishing, Cat.investment_scam, Cat.lottery_scam,
       Cat.generic_scam] Cat.bank_fraud
  have horder : declOrder = pre ++ typeChoice counts :: post := heq
  have hmax : ∀ c ∈ declOrder, score counts c ≤ score counts (typeChoice counts) := by
    intro c hc
    rw [horder] at hc
    rcases List.mem_append.mp hc with hc | hc
    · exact le_of_lt (hpre c hc)
    · rcases List.mem_cons.mp hc with rfl | hc
      · exact le_refl _
      · exact hpost c hc
  have hmem : typeChoice counts ∈ declOrder := by
    rw [horder]
    exact List.mem_append_right _ (List.mem_cons_self _ _)
  have hspec : specMaxScore counts = score counts (typeChoice counts) := by
    refine le_antisymm ?_ ?_
    · exact foldr_max_le _ _ (score_nonneg counts _) (by
        intro x hx
        obtain ⟨c, hc, rfl⟩ := List.mem_map.mp hx
        exact hmax c hc)
    · exact foldr_max_ge _ _ (List.mem_map_of_mem _ hmem)
  unfold bestScore
  by_cases hpos : 0 < score counts (typeChoice counts)
  · rw [if_pos hpos, hspec]
  · rw [if_neg hpos, hspec]
    exact (le_antisymm (le_of_not_lt hpos) (score_nonneg counts _)).symm

theorem specMaxScore_mono (counts counts' : Cat → ℕ)
    (h : ∀ c, counts c ≤ counts' c) :
    specMaxScore counts ≤ specMaxScore counts' := by
  refine foldr_max_le _ _ (foldr_max_ge_zero _) ?_
  intro x hx
  obtain ⟨c, hc, rfl⟩ := List.mem_map.mp hx
  refine le_trans ?_ (foldr_max_ge _ _ (List.mem_map_of_mem _ hc))
  exact mul_le_mul_of_nonneg_left (by exact_mod_cast h c)
    (le_of_lt (weight_pos c))

theorem rhe_ge_floor (q : ℚ) : ⌊q⌋ ≤ rhe q := by
  unfold rhe
  split_ifs <;> omega

theorem rhe_le_floor_add_one (q : ℚ) : rhe q ≤ ⌊q⌋ + 1 := by
  unfold rhe
  split_ifs <;> omega

theorem rhe_mono {x y : ℚ} (h : x ≤ y) : rhe x ≤ rhe y := by
  by_cases hf : ⌊x⌋ < ⌊y⌋
  · calc rhe x ≤ ⌊x⌋ + 1 := rhe_le_floor_add_one x
    _ ≤ ⌊y⌋ := by omega
    _ ≤ rhe y := rhe_ge_floor y
  · have hfe : ⌊x⌋ = ⌊y⌋ := le_antisymm (Int.floor_le_floor h) (le_of_not_lt hf)
    have hr : x - ⌊x⌋ ≤ y - ⌊y⌋ := by
      rw [← hfe]
      exact sub_le_sub_right h _
    unfold rhe
    rw [hfe]
    rw [hfe] at hr
    split_ifs <;> first | omega | (exfalso; linarith)

theorem round2_mono {x y : ℚ} (h : x ≤ y) : round2 x ≤ round2 y := by
  unfold round2
  have := rhe_mono (mul_le_mul_of_nonneg_right h (by norm_num : (0:ℚ) ≤ 100))
  exact div_le_div_of_nonneg_right (by exact_mod_cast this) (by norm_num)

/-- `round(x, 2)` is the identity on whole-cent values. -/
theorem round2_exact_int (q : ℚ) (n : ℤ) (h : q * 100 = (n : ℚ)) :
    round2 q = q := by
  unfold round2 rhe
  rw [h, Int.floor_intCast]
  rw [if_pos (by norm_num)]
  have hq : q = (n : ℚ) / 100 := by
    rw [← h]
    ring
  rw [hq]

/-- C7 (amended): `confidence` equals
`min(0.99, 0.6 + 0.05 × (winningScore + urgencyScore))` rounded to two
decimals (hence exactly the formula whenever the formula value is a
whole number of cents, e.g. whenever the winning weight is 1.0), always
lies in [0.6, 0.99], and is monotone non-decreasing in the match
counts and the urgency count. -/
theorem confidence_formula_bounds_mono (counts : Cat → ℕ) (u : ℕ)
    (counts' : Cat → ℕ) (u' : ℕ) :
    confidence counts u =
      round2 (min (99/100) (3/5 + (specMaxScore counts + (u : ℚ)) * (1/20))) ∧
    (∀ n : ℤ,
      min ((99:ℚ)/100) (3/5 + (specMaxScore counts + (u : ℚ)) * (1/20)) * 100 =
        (n : ℚ) →
      confidence counts u =
        min (99/100) (3/5 + (specMaxScore counts + (u : ℚ)) * (1/20))) ∧
    3/5 ≤ confidence counts u ∧ confidence counts u ≤ 99/100 ∧
    ((∀ c, counts c ≤ counts' c) → u ≤ u' →
      confidence counts u ≤ confidence counts' u') := by
  have hform : ∀ (k : Cat → ℕ) (v : ℕ), confidence k v =
      round2 (min (99/100) (3/5 + (specMaxScore k + (v : ℚ)) * (1/20))) := by
    intro k v
    unfold confidence
    rw [bestScore_eq_specMax]
  have hev : ∀ (k : Cat → ℕ) (v : ℕ),
      (0:ℚ) ≤ (specMaxScore k + (v : ℚ)) * (1/20) := by
    intro k v
    exact mul_nonneg (add_nonneg (foldr_max_ge_zero _) (Nat.cast_nonneg v))
      (by norm_num)
  refine ⟨hform counts u, ?_, ?_, ?_, ?_⟩
  · intro n hn
    rw [hform counts u]
    exact round2_exact_int _ n hn
  · rw [hform counts u]
    have h1 : (3/5 : ℚ) ≤
        min (99/100) (3/5 + (specMaxScore counts + (u : ℚ)) * (1/20)) := by
      refine le_min (by norm_num) ?_
      have := hev counts u
      linarith
    calc (3/5 : ℚ) = round2 (3/5) := (round2_exact_int _ 60 (by norm_num)).symm
    _ ≤ _ := round2_mono h1
  · rw [hform counts u]
    calc round2 (min (99/100) (3/5 + (specMaxScore counts + (u : ℚ)) * (1/20)))
        ≤ round2 (99/100) := round2_mono (min_le_left _ _)
    _ = 99/100 := round2_exact_int _ 99 (by norm_num)
  · intro hc hu
    rw [hform counts u, hform counts' u']
    refine round2_mono (min_le_min (le_refl _) ?_)
    have h1 : specMaxScore counts ≤ specMaxScore counts' :=
      specMaxScore_mono counts counts' hc
    have h2 : ((u : ℚ)) ≤ (u' : ℚ) := by exact_mod_cast hu
    nlinarith

/-- The match-count vector of a text matching exactly one `bank_fraud`
keyword. -/
def bankOnlyCounts : Cat → ℕ
  | Cat.bank_fraud => 1
  | _ => 0

/-- Witness for `confidence_formula_bounds_mono`: one `bank_fraud`
keyword and no urgency terms give exactly
`min(0.99, 0.6 + 0.05 × 1) = 0.65`, a whole-cent value. -/
theorem confidence_formula_bounds_mono_witness :
    min ((99:ℚ)/100)
      (3/5 + (specMaxScore bankOnlyCounts + ((0:ℕ) : ℚ)) * (1/20)) * 100 =
      ((65 : ℤ) : ℚ) ∧
    confidence bankOnlyCounts 0 =
      min (99/100)
        (3/5 + (specMaxScore bankOnlyCounts + ((0:ℕ) : ℚ)) * (1/20)) := by
  have hsm : specMaxScore bankOnlyCounts = 1 := by
    norm_num [specMaxScore, declOrder, score, bankOnlyCounts, weight, max_def]
  have hval : min ((99:ℚ)/100)
      (3/5 + (specMaxScore bankOnlyCounts + ((0:ℕ) : ℚ)) * (1/20)) * 100 =
      ((65 : ℤ) : ℚ) := by
    rw [hsm]
    norm_num [min_def]
  refine ⟨hval, ?_⟩
  exact (confidence_formula_bounds_mono bankOnlyCounts 0 bankOnlyCounts 0).2.1
    65 hval

/-- The match-count vector of a text matching exactly one
`generic_scam` keyword (e.g. the text `"police"`). -/
def genericOnlyCounts : Cat → ℕ
  | Cat.generic_scam => 1
  | _ => 0

theorem genericOnly_typeChoice : typeChoice genericOnlyCounts = Cat.generic_scam := by
  have hb : score genericOnlyCounts Cat.bank_fraud = 0 := by
    norm_num [score, genericOnlyCounts, weight]
  have hu : score genericOnlyCounts Cat.upi_fraud = 0 := by
    norm_num [score, genericOnlyCounts, weight]
  have hp : score genericOnlyCounts Cat.phishing = 0 := by
    norm_num [score, genericOnlyCounts, weight]
  have hi : score genericOnlyCounts Cat.investment_scam = 0 := by
    norm_num [score, genericOnlyCounts, weight]
  have hl : score genericOnlyCounts Cat.lottery_scam = 0 := by
    norm_num [score, genericOnlyCounts, weight]
  have hg : score genericOnlyCounts Cat.generic_scam = 1/2 := by
    norm_num [score, genericOnlyCounts, weight]
  unfold typeChoice pyMaxBy
  simp only [List.foldl_cons, List.foldl_nil]
  rw [hb, hu, if_neg (lt_irrefl _)]
  rw [hb, hp, if_neg (lt_irrefl _)]
  rw [hb, hi, if_neg (lt_irrefl _)]
  rw [hb, hl, if_neg (lt_irrefl _)]
  rw [hb, hg, if_pos (by norm_num)]

theorem genericOnly_bestScore : bestScore genericOnlyCounts = 1/2 := by
  unfold bestScore
  rw [genericOnly_typeChoice]
  rw [show score genericOnlyCounts Cat.generic_scam = 1/2 from by
    norm_num [score, genericOnlyCounts, weight]]
  rw [if_pos (by norm_num)]

theorem round2_five_eighths : round2 ((5:ℚ)/8) = 31/50 := by
  unfold round2 rhe
  have hfl : ⌊(5/8 : ℚ) * 100⌋ = 62 :=
    Int.floor_eq_iff.mpr ⟨by norm_num, by norm_num⟩
  rw [hfl]
  rw [if_neg (by norm_num), if_neg (by norm_num), if_pos (by decide)]
  norm_num

/-- C7 counterexample: one matched `generic_scam` keyword (weight 0.5)
and no urgency terms.  The formula gives `0.6 + 0.05 × 0.5 = 0.625`,
but `detect_scam` returns `round(confidence, 2)` (detector.py 160),
i.e. 0.62 — the claimed equality with the unrounded formula fails.
(At this point the IEEE evaluation of the source and this exact
evaluation round identically.) -/
theorem confidence_not_formula :
    (detect_scam genericOnlyCounts 0).conf = 31/50 ∧
    min ((99:ℚ)/100)
      (3/5 + (bestScore genericOnlyCounts + ((0:ℕ) : ℚ)) * (1/20)) = 5/8 ∧
    (31/50 : ℚ) ≠ 5/8 := by
  have h58 : min ((99:ℚ)/100) (3/5 + ((1:ℚ)/2 + ((0:ℕ) : ℚ)) * (1/20)) = 5/8 := by
    rw [min_def]
    norm_num
  refine ⟨?_, ?_, by norm_num⟩
  · show confidence genericOnlyCounts 0 = 31/50
    unfold confidence
    rw [genericOnly_bestScore, h58, round2_five_eighths]
  · rw [genericOnly_bestScore, h58]

/-! ## Session aggregate and endpoint (session.py, main.py; claims C9, C10)

Timestamps (`time.time()` values) are oracle inputs, modelled as exact
rationals. -/

/-- The fields of `Session` (session.py 18-36) the claims depend on. -/
structure SessionState where
  start_time : ℚ
  last_message_time : ℚ
  message_count : ℕ

/-- `Session.get_engagement_duration` (session.py 43-51):
`max(1.0, actual_duration, estimated_duration)`. -/
def get_engagement_duration (s : SessionState) : ℚ :=
  let actual_duration := s.last_message_time - s.start_time
  let estimated_duration := (s.message_count : ℚ) * 12
  max 1 (max actual_duration estimated_duration)

/-- The response fields of `honeypot_endpoint` (main.py 223-252) the
claims concern.  `scamDetected` is the literal `True` of main.py 227;
`totalMessagesExchanged` is `int(sess.message_count * 2)` (line 233)
and `engagementDurationSeconds` is
`int(sess.get_engagement_duration())` (line 234) — Python `int()` on
these non-negative values truncates, i.e. takes the floor. -/
structure HoneypotResponse where
  scamDetected : Bool
  scamType : Cat
  scamConfidence : ℚ
  totalMessagesExchanged : ℤ
  engagementDurationSeconds : ℤ

def honeypot_response (s : SessionState) (dr : DetectResult) : HoneypotResponse :=
  { scamDetected := true
    scamType := dr.scam_type
    scamConfidence := dr.conf
    totalMessagesExchanged := (s.message_count : ℤ) * 2
    engagementDurationSeconds := ⌊get_engagement_duration s⌋ }

/-- `Session.get_engagement_metrics` (session.py 53-59): the
message-exchange count it reports. -/
def metrics_totalMessagesExchanged (s : SessionState) : ℕ := s.message_count * 2

/-- C9 (amended): both reported message-exchange counts equal exactly
2 × the turn counter; the endpoint reports the engagement duration
truncated to whole seconds, where the duration is the greatest of the
wall-clock elapsed time, 12.0 s × the turn counter and the 1-second
floor (it equals one of the three and bounds all of them). -/
theorem engagement_metrics_spec (s : SessionState) (dr : DetectResult) :
    (honeypot_response s dr).totalMessagesExchanged = 2 * s.message_count ∧
    metrics_totalMessagesExchanged s = 2 * s.message_count ∧
    (honeypot_response s dr).engagementDurationSeconds =
      ⌊get_engagement_duration s⌋ ∧
    s.last_message_time - s.start_time ≤ get_engagement_duration s ∧
    (s.message_count : ℚ) * 12 ≤ get_engagement_duration s ∧
    1 ≤ get_engagement_duration s ∧
    (get_engagement_duration s = s.last_message_time - s.start_time ∨
     get_engagement_duration s = (s.message_count : ℚ) * 12 ∨
     get_engagement_duration s = 1) := by
  refine ⟨by show (s.message_count : ℤ) * 2 = 2 * s.message_count; ring,
    by show s.message_count * 2 = 2 * s.message_count; ring, rfl, ?_, ?_, ?_, ?_⟩
  · exact le_trans (le_max_left _ _) (le_max_right 1 _)
  · exact le_trans (le_max_right _ _) (le_max_right 1 _)
  · exact le_max_left 1 _
  · unfold get_engagement_duration
    rcases max_choice (1 : ℚ)
      (max (s.last_message_time - s.start_time) ((s.message_count : ℚ) * 12))
      with h | h
    · exact Or.inr (Or.inr h)
    · rcases max_choice (s.last_message_time - s.start_time)
        ((s.message_count : ℚ) * 12) with h' | h'
      · exact Or.inl (by rw [h, h'])
      · exact Or.inr (Or.inl (by rw [h, h']))

/-- C9 counterexample: a session whose wall-clock elapsed time is
14.9 s after one turn.  `get_engagement_duration` is 14.9, but the
endpoint reports `int(14.9) = 14` — the reported duration does not
equal the greatest of the three quantities. -/
theorem engagement_duration_truncated :
    (honeypot_response ⟨0, 149/10, 1⟩
      (detect_scam (fun _ => 0) 0)).engagementDurationSeconds = 14 ∧
    get_engagement_duration ⟨0, 149/10, 1⟩ = 149/10 ∧
    ((14 : ℚ) ≠ 149/10) := by
  have hd : get_engagement_duration ⟨0, 149/10, 1⟩ = 149/10 := by
    show max 1 (max ((149:ℚ)/10 - 0) (((1:ℕ) : ℚ) * 12)) = 149/10
    rw [show ((149:ℚ)/10 - 0) = 149/10 from by norm_num,
      show (((1:ℕ) : ℚ) * 12) = 12 from by norm_num]
    rw [max_eq_left (by norm_num : (12:ℚ) ≤ 149/10)]
    rw [max_eq_right (by norm_num : (1:ℚ) ≤ 149/10)]
  refine ⟨?_, hd, by norm_num⟩
  show ⌊get_engagement_duration ⟨0, 149/10, 1⟩⌋ = 14
  rw [hd]
  exact Int.floor_eq_iff.mpr ⟨by norm_num, by norm_num⟩

/-- C10: the scam flag is constant.  `detect_scam` returns
`is_scam = True` for every input (detector.py 158, "Constant given
Honeypot Assumption") and the endpoint's `scamDetected` field is the
literal `True` (main.py 227), regardless of the session state and the
detection result. -/
theorem scam_flag_constant (counts : Cat → ℕ) (u : ℕ) (s : SessionState) :
    (detect_scam counts u).is_scam = true ∧
    (honeypot_response s (detect_scam counts u)).scamDetected = true :=
  ⟨rfl, rfl⟩
